import Mathlib

/-!
Verification of the mabby multi-armed-bandit simulation library.

The Python source is shallowly embedded: numpy float64 values are modelled
as rationals (exact arithmetic), numpy uint32 counters as naturals, and the
numpy `Generator` collaborator as explicit streams of draws threaded through
every stochastic operation (the source mutates one shared `Generator`
object; here that mutation is explicit state passing).  Fallible operations
return `Except String` carrying the source's error messages.
-/

namespace Mabby

/-- Model of a numpy `Generator`: a stream of float draws (for `random`,
`normal`, `binomial`, ...) and a stream of integer draws (for `integers`
and `choice`), each with a cursor.  The source advances one shared mutable
generator; here each draw returns the advanced generator. -/
structure Rng where
  floats : ℕ → ℚ
  fpos : ℕ
  ints : ℕ → ℕ
  ipos : ℕ

/-- One `rng.random()` draw (a float in `[0, 1)`). -/
def Rng.nextFloat (r : Rng) : ℚ × Rng :=
  (r.floats r.fpos, { r with fpos := r.fpos + 1 })

/-- One integer draw from the integer stream. -/
def Rng.nextInt (r : Rng) : ℕ × Rng :=
  (r.ints r.ipos, { r with ipos := r.ipos + 1 })

/-- One `rng.binomial(n=1, p)` draw: a Bernoulli value in `{0, 1}`.  The
distribution depends on `p`; only the support matters here, modelled by
reducing the next integer draw mod 2. -/
def Rng.binomial1 (r : Rng) (_p : ℚ) : ℕ × Rng :=
  let (j, r') := r.nextInt
  (j % 2, r')

/-- `np.max` over a nonempty list (the source never applies it to an empty
array). -/
def npMax : List ℚ → ℚ
  | [] => 0
  | x :: xs => xs.foldl max x

/-- `mabby.utils.random_argmax`: indices attaining the maximum are
collected (`np.where(values == np.max(values))`) and `rng.choice` picks one
of them, modelled as an integer draw reduced mod the candidate count. -/
def random_argmax (values : List ℚ) (rng : Rng) : ℕ × Rng :=
  let candidates :=
    (List.range values.length).filter (fun i => decide (values.getD i 0 = npMax values))
  let (j, rng') := rng.nextInt
  (candidates.getD (j % candidates.length) 0, rng')

/-! ## Arms and bandits (`mabby/arms.py`, `mabby/bandit.py`) -/

/-- An arm: a reward distribution with a sampler `play(rng)` (one draw from
the supplied generator) and an exact mean.  Concrete arms (Bernoulli,
Gaussian) differ only in which generator primitive `play` consumes, so an
arm is modelled by its two capabilities. -/
structure Arm where
  play : Rng → ℚ × Rng
  mean : ℚ

/-- Placeholder arm for total indexing; never reached by in-range access. -/
def defaultArm : Arm := ⟨fun r => (0, r), 0⟩

instance : Inhabited Arm := ⟨defaultArm⟩

/-- `Bandit`: the fixed arm list `_arms` and the bandit's own generator
`_rng` (constructor parameter `rng`). -/
structure Bandit where
  _arms : List Arm
  _rng : Rng

/-- `Bandit.__init__`: stores the arm list and rng.  It performs no
validation whatsoever. -/
def Bandit.init (arms : List Arm) (rng : Rng) : Bandit := ⟨arms, rng⟩

/-- `Bandit.play(i)`: `return self[i].play(self._rng)` — the chosen arm is
played with the bandit's own internal rng. -/
def Bandit.play (b : Bandit) (i : ℕ) : ℚ × Bandit :=
  let (reward, r') := (b._arms.getD i defaultArm).play b._rng
  (reward, { b with _rng := r' })

/-- Follows the spec's words, for comparison with `Bandit.play`:
"`play(i, rng)` (delegates to arm i, using run-level rng, not the armset's
own)". -/
def Bandit.playSpecModel (b : Bandit) (i : ℕ) (rng : Rng) : ℚ × Rng :=
  (b._arms.getD i defaultArm).play rng

/-- `Bandit.means`: the list of arm means. -/
def Bandit.means (b : Bandit) : List ℚ := b._arms.map Arm.mean

/-- `Bandit.best_arm`: `random_argmax(self.means, rng=self._rng)` — ties
broken uniformly using the bandit's own rng. -/
def Bandit.best_arm (b : Bandit) : ℕ × Bandit :=
  let (i, r') := random_argmax b.means b._rng
  (i, { b with _rng := r' })

/-- `Bandit.is_opt(choice)`: `np.max(self.means) == self._arms[choice].mean`. -/
def Bandit.is_opt (b : Bandit) (choice : ℕ) : Bool :=
  decide (npMax b.means = (b._arms.getD choice defaultArm).mean)

/-- `Bandit.regret(choice)`: `np.max(self.means) - self._arms[choice].mean`. -/
def Bandit.regret (b : Bandit) (choice : ℕ) : ℚ :=
  npMax b.means - (b._arms.getD choice defaultArm).mean

/-- Length of the shortest list in `ls` (`0` when `ls` is empty): the
number of rows `zip(*kwargs.values())` yields in `Arm.bandit`. -/
def minLen : List (List ℚ) → ℕ
  | [] => 0
  | l :: rest => rest.foldl (fun m r => min m r.length) l.length

/-- The rows of `zip(*kwargs.values())`: row `t` collects the `t`-th entry
of every parameter list, and rows stop at the shortest list. -/
def zipRows (ls : List (List ℚ)) : List (List ℚ) :=
  (List.range (minLen ls)).map (fun t => ls.map (fun l => l.getD t 0))

/-- `Arm.bandit(**kwargs)`: builds one arm per row of the zipped parameter
lists (`mk` stands for the concrete arm subclass constructor applied to one
row) and fails when no arm can be built. -/
def Arm.banditOf (mk : List ℚ → Arm) (paramLists : List (List ℚ)) (rng : Rng) :
    Except String Bandit :=
  if (zipRows paramLists).length = 0 then .error "insufficient parameters to create an arm"
  else .ok (Bandit.init ((zipRows paramLists).map mk) rng)

/-! ## Agent (`mabby/agent.py`)

The agent is generic over the strategy state `σ`; the strategy's methods
are passed as functions (`chooseS` does not mutate strategy state in any
variant of the source, so it returns only the choice and the advanced rng).
The Python agent stores a reference to the shared generator at `prime`
time; mutation of that shared object is modelled by threading the rng
through `choose` and `update` explicitly. -/

structure Agent (σ : Type) where
  strategy : σ
  _primed : Bool
  _choice : Option ℕ

/-- `Agent.__init__`: unprimed, no pending choice. -/
def Agent.init {σ : Type} (strategy : σ) : Agent σ := ⟨strategy, false, none⟩

/-- `Agent.prime(k, steps, rng)`: sets `_primed`, clears `_choice`, primes
the strategy. -/
def Agent.prime {σ : Type} (primeS : σ → ℕ → ℕ → σ) (a : Agent σ) (k steps : ℕ) :
    Agent σ :=
  { strategy := primeS a.strategy k steps, _primed := true, _choice := none }

/-- `Agent.choose()`: usage error unless primed; otherwise delegates to the
strategy with the stored (shared) rng and records the pending choice. -/
def Agent.choose {σ : Type} (chooseS : σ → Rng → ℕ × Rng) (a : Agent σ) (rng : Rng) :
    Except String (ℕ × Agent σ × Rng) :=
  if a._primed then
    let (c, r') := chooseS a.strategy rng
    .ok (c, { a with _choice := some c }, r')
  else .error "choose() can only be called on a primed agent"

/-- `Agent.update(reward)`: usage error unless a choice is pending;
otherwise delegates to the strategy and clears the pending choice. -/
def Agent.update {σ : Type} (updateS : σ → ℕ → ℚ → Rng → σ × Rng) (a : Agent σ)
    (reward : ℚ) (rng : Rng) : Except String (Agent σ × Rng) :=
  match a._choice with
  | none => .error "update() can only be called after choose()"
  | some c =>
    let (s', r') := updateS a.strategy c reward rng
    .ok ({ a with strategy := s', _choice := none }, r')

/-- `Agent.Qs`: readable only once primed. -/
def Agent.Qs {σ : Type} (QsS : σ → List ℚ) (a : Agent σ) : Except String (List ℚ) :=
  if a._primed then .ok (QsS a.strategy)
  else .error "agent has no Q values before it is run"

/-- `Agent.Ns`: readable only once primed (the source reuses the Q-values
error message). -/
def Agent.Ns {σ : Type} (NsS : σ → List ℕ) (a : Agent σ) : Except String (List ℕ) :=
  if a._primed then .ok (NsS a.strategy)
  else .error "agent has no Q values before it is run"

/-! ## Simulation (`mabby/simulation.py`) -/

/-- One iteration of the inner loop of `Simulation._run_trials_for_agent`:
`choice = agent.choose(); reward = self.bandit.play(choice);
agent.update(reward)`.  The simulation-level rng `rng` is handed to the
agent (it was stored at `prime` time); `Bandit.play` receives no rng.
Returns the updated agent, bandit, simulation rng, and the step's choice
and reward (as recorded by `agent_stats.update`). -/
def simulationStep {σ : Type} (chooseS : σ → Rng → ℕ × Rng)
    (updateS : σ → ℕ → ℚ → Rng → σ × Rng) (a : Agent σ) (b : Bandit) (rng : Rng) :
    Except String (Agent σ × Bandit × Rng × ℕ × ℚ) :=
  match Agent.choose chooseS a rng with
  | .error e => .error e
  | .ok (choice, a1, rng1) =>
    let (reward, b') := b.play choice
    match Agent.update updateS a1 reward rng1 with
    | .error e => .error e
    | .ok (a2, rng2) => .ok (a2, b', rng2, choice, reward)

/-- `Simulation.__init__` validation: an empty agent list and an empty
bandit are both rejected (in that order). -/
def Simulation.init {α : Type} (agents : List α) (b : Bandit) (rng : Rng) :
    Except String (List α × Bandit × Rng) :=
  if agents.length = 0 then .error "no strategies or agents were supplied"
  else if b._arms.length = 0 then .error "bandit cannot be empty"
  else .ok (agents, b, rng)

/-! ## Semi-uniform strategies (`mabby/strategies/semi_uniform.py`)

`_Qs` (float64) is modelled as `List ℚ` and `_Ns` (uint32) as `List ℕ`:
the claims read the estimator arithmetic exactly, and the counters stay far
below the uint32 range in any run the source supports. -/

structure SemiUniformState where
  _Qs : List ℚ
  _Ns : List ℕ
deriving DecidableEq

namespace SemiUniformStrategy

/-- `SemiUniformStrategy.prime`: zeroed arrays of size `k` (`steps` is
unused by the base class). -/
def prime (k _steps : ℕ) : SemiUniformState :=
  ⟨List.replicate k 0, List.replicate k 0⟩

/-- `SemiUniformStrategy._explore`: `rng.integers(0, len(self._Ns))`, a
uniform draw over the `k` arms, modelled as the next integer draw reduced
into `[0, k)`. -/
def explore (s : SemiUniformState) (rng : Rng) : ℕ × Rng :=
  let (j, rng') := rng.nextInt
  (j % s._Ns.length, rng')

/-- `SemiUniformStrategy._exploit`: `random_argmax(self._Qs, rng=rng)`. -/
def exploit (s : SemiUniformState) (rng : Rng) : ℕ × Rng :=
  random_argmax s._Qs rng

/-- `SemiUniformStrategy.choose`: explore when `rng.random() <
self.effective_eps()`, else exploit. -/
def choose (effectiveEps : ℚ) (s : SemiUniformState) (rng : Rng) : ℕ × Rng :=
  let (u, rng1) := rng.nextFloat
  if u < effectiveEps then explore s rng1 else exploit s rng1

/-- `SemiUniformStrategy.update`: `self._Ns[choice] += 1` then
`self._Qs[choice] += (reward - self._Qs[choice]) / self._Ns[choice]`. -/
def update (s : SemiUniformState) (choice : ℕ) (reward : ℚ) : SemiUniformState :=
  let n := s._Ns.getD choice 0 + 1
  let q := s._Qs.getD choice 0
  ⟨s._Qs.set choice (q + (reward - q) / (n : ℚ)), s._Ns.set choice n⟩

end SemiUniformStrategy

/-- `RandomStrategy.effective_eps`: always `1`. -/
def RandomStrategy.effective_eps : ℚ := 1

/-- `RandomStrategy.choose` is the inherited semi-uniform `choose` with the
random strategy's effective epsilon. -/
def RandomStrategy.choose (s : SemiUniformState) (rng : Rng) : ℕ × Rng :=
  SemiUniformStrategy.choose RandomStrategy.effective_eps s rng

/-- `EpsilonGreedyStrategy.__init__` validation: `eps` must lie in `[0,1]`. -/
def EpsilonGreedyStrategy.init (eps : ℚ) : Except String ℚ :=
  if eps < 0 ∨ eps > 1 then .error "eps must be between 0 and 1" else .ok eps

/-- `EpsilonGreedyStrategy.effective_eps`: the fixed `eps`. -/
def EpsilonGreedyStrategy.effective_eps (eps : ℚ) : ℚ := eps

/-- `EpsilonGreedyStrategy.choose` is the inherited semi-uniform `choose`
with the fixed epsilon. -/
def EpsilonGreedyStrategy.choose (eps : ℚ) (s : SemiUniformState) (rng : Rng) :
    ℕ × Rng :=
  SemiUniformStrategy.choose (EpsilonGreedyStrategy.effective_eps eps) s rng

/-- `EpsilonFirstStrategy` adds `_explore_steps_remaining` to the shared
semi-uniform estimator state. -/
structure EpsilonFirstState where
  base : SemiUniformState
  _explore_steps_remaining : ℕ

/-- `EpsilonFirstStrategy.prime`: shared prime plus
`_explore_steps_remaining = int(self.eps * steps)`. -/
def EpsilonFirstStrategy.prime (eps : ℚ) (k steps : ℕ) : EpsilonFirstState :=
  ⟨SemiUniformStrategy.prime k steps, (⌊eps * steps⌋).toNat⟩

/-- `EpsilonFirstStrategy.update`: the shared semi-uniform update, then the
exploration counter decrements while positive. -/
def EpsilonFirstStrategy.update (s : EpsilonFirstState) (choice : ℕ) (reward : ℚ) :
    EpsilonFirstState :=
  ⟨SemiUniformStrategy.update s.base choice reward,
   if s._explore_steps_remaining > 0 then s._explore_steps_remaining - 1
   else s._explore_steps_remaining⟩

/-! ## UCB1 (`mabby/strategies/ucb.py`)

`np.sqrt` and `np.log` are the float library's transcendental functions,
an external collaborator here: the embedding is parametric in the two
functions `sqrt log : ℚ → ℚ` interpreting them. -/

structure UCB1State where
  _t : ℕ
  _Qs : List ℚ
  _Ns : List ℕ

namespace UCB1Strategy

/-- `UCB1Strategy.prime`: step counter `0` and zeroed arrays of size `k`. -/
def prime (k : ℕ) : UCB1State := ⟨0, List.replicate k 0, List.replicate k 0⟩

/-- `UCB1Strategy._compute_UCBs`:
`self._Qs + self.alpha * np.sqrt(np.log(self._t) / self._Ns)` elementwise. -/
def computeUCBs (sqrt log : ℚ → ℚ) (alpha : ℚ) (s : UCB1State) : List ℚ :=
  List.zipWith (fun (q : ℚ) (n : ℕ) => q + alpha * sqrt (log (s._t : ℚ) / (n : ℚ)))
    s._Qs s._Ns

/-- `UCB1Strategy.choose`: the forced round-robin arm `_t` while
`_t < len(self._Ns)`, else `random_argmax` of the UCB values. -/
def choose (sqrt log : ℚ → ℚ) (alpha : ℚ) (s : UCB1State) (rng : Rng) : ℕ × Rng :=
  if s._t < s._Ns.length then (s._t, rng)
  else random_argmax (computeUCBs sqrt log alpha s) rng

/-- `UCB1Strategy.update`: `self._t += 1; self._Ns[choice] += 1;
self._Qs[choice] += (reward - self._Qs[choice]) / self._Ns[choice]`. -/
def update (s : UCB1State) (choice : ℕ) (reward : ℚ) : UCB1State :=
  let n := s._Ns.getD choice 0 + 1
  let q := s._Qs.getD choice 0
  ⟨s._t + 1, s._Qs.set choice (q + (reward - q) / (n : ℚ)), s._Ns.set choice n⟩

end UCB1Strategy

/-- The alternating choose/update protocol driving one freshly primed UCB1
trial (the order the `Agent`/`Simulation` loop enforces): state after `i`
steps, where step `i` plays the chosen arm against the adversarially fixed
reward `rewards i`. -/
def ucbTrial (sqrt log : ℚ → ℚ) (alpha : ℚ) (k : ℕ) (rewards : ℕ → ℚ)
    (rng0 : Rng) : ℕ → UCB1State × Rng
  | 0 => (UCB1Strategy.prime k, rng0)
  | i + 1 =>
    let (s, r) := ucbTrial sqrt log alpha k rewards rng0 i
    let (c, r') := UCB1Strategy.choose sqrt log alpha s r
    (UCB1Strategy.update s c (rewards i), r')

/-- The arm returned by the `i`-th `choose` call of the protocol. -/
def ucbChoice (sqrt log : ℚ → ℚ) (alpha : ℚ) (k : ℕ) (rewards : ℕ → ℚ)
    (rng0 : Rng) (i : ℕ) : ℕ :=
  let (s, r) := ucbTrial sqrt log alpha k rewards rng0 i
  (UCB1Strategy.choose sqrt log alpha s r).1

/-! ## Beta Thompson sampling (`mabby/strategies/thompson.py`) -/

structure BetaTSState where
  _a : List ℕ
  _b : List ℕ
deriving DecidableEq

namespace BetaTSStrategy

/-- `BetaTSStrategy.prime`: uniform `Beta(1,1)` priors. -/
def prime (k : ℕ) : BetaTSState := ⟨List.replicate k 1, List.replicate k 1⟩

/-- `BetaTSStrategy.update`: requires an rng (checked first, for both
variants); a general strategy rejects rewards outside `[0,1]`, a
non-general one rejects rewards other than `0` and `1`; the posterior
update adds the (pseudo-)reward to `_a[choice]` and its complement to
`_b[choice]`.  The general pseudo-reward is one `rng.binomial(n=1,
p=reward)` draw. -/
def update (general : Bool) (s : BetaTSState) (choice : ℕ) (reward : ℚ)
    (rng : Option Rng) : Except String (BetaTSState × Rng) :=
  match rng with
  | none => .error "TS strategies require rng"
  | some rng =>
    if general ∧ (reward > 1 ∨ reward < 0) then
      .error "general Beta TS agents can only be used with rewards from 0 to 1"
    else if ¬general ∧ reward ≠ 0 ∧ reward ≠ 1 then
      .error "Beta TS agents can only be used with Bernoulli rewards"
    else
      let pr : ℕ × Rng :=
        if general then rng.binomial1 reward else (if reward = 1 then 1 else 0, rng)
      .ok (⟨s._a.set choice (s._a.getD choice 0 + pr.1),
            s._b.set choice (s._b.getD choice 0 + (1 - pr.1))⟩, pr.2)

end BetaTSStrategy

/-! ## Metrics (`mabby/stats.py`) -/

/-- The `Metric` enum members. -/
inductive Metric where
  | regret
  | rewards
  | optimality
  | cumRegret
  | cumRewards
deriving DecidableEq

/-- `np.cumsum` over a list, with running total `acc`. -/
def cumsumFrom (acc : ℚ) : List ℚ → List ℚ
  | [] => []
  | x :: xs => (acc + x) :: cumsumFrom (acc + x) xs

/-- `np.cumsum`. -/
def cumsum (l : List ℚ) : List ℚ := cumsumFrom 0 l

/-- Each metric's `MetricMapping` (base metric and transform), from the
enum member definitions: the three base metrics have none, and the two
cumulative metrics map to their base with `np.cumsum`. -/
def Metric.mapping : Metric → Option (Metric × (List ℚ → List ℚ))
  | .cumRegret => some (.regret, cumsum)
  | .cumRewards => some (.rewards, cumsum)
  | _ => none

/-- `Metric.is_base`. -/
def Metric.is_base (m : Metric) : Bool := m.mapping.isNone

/-- `Metric.base`: the base metric, or the metric itself when already base. -/
def Metric.base (m : Metric) : Metric :=
  match m.mapping with
  | some (b, _) => b
  | none => m

/-- `Metric.transform`: apply the mapping's transform, or the identity when
the metric is base. -/
def Metric.transform (m : Metric) (values : List ℚ) : List ℚ :=
  match m.mapping with
  | some (_, f) => f values
  | none => values

/-- The prefix-sum stated by the spec, written independently of `cumsum`:
entry `i` is the sum of the first `i + 1` inputs. -/
def listPartialSums (l : List ℚ) : List ℚ :=
  (List.range l.length).map (fun i => (l.take (i + 1)).sum)

/-- A freshly primed semi-uniform strategy after a sequence of updates
(each trace entry is the `(choice, reward)` of one step).  Random and
EpsilonGreedy inherit this `update` unchanged; EpsilonFirst layers only its
exploration counter on top of it. -/
def runSemiUniform (k steps : ℕ) (trace : List (ℕ × ℚ)) : SemiUniformState :=
  trace.foldl (fun s cr => SemiUniformStrategy.update s cr.1 cr.2)
    (SemiUniformStrategy.prime k steps)

/-! ## Concrete instances used by witnesses and counterexamples -/

/-- A generator whose draws are all zero. -/
def rngZero : Rng := ⟨fun _ => 0, 0, fun _ => 0, 0⟩

/-- A generator whose float draws are all `1/2`. -/
def rngHalf : Rng := ⟨fun _ => 1/2, 0, fun _ => 0, 0⟩

/-- A generator whose float draws are all `10`; distinguishable from
`rngTwenty` by the rewards it produces through `passArm`. -/
def rngTen : Rng := ⟨fun _ => 10, 0, fun _ => 0, 0⟩

/-- A generator whose float draws are all `20`. -/
def rngTwenty : Rng := ⟨fun _ => 20, 0, fun _ => 0, 0⟩

/-- An arm whose reward is exactly the generator draw it consumes, making
visible which generator `play` was handed. -/
def passArm : Arm := ⟨Rng.nextFloat, 0⟩

/-- A one-arm bandit whose own rng draws `10`. -/
def c1Bandit : Bandit := Bandit.init [passArm] rngTen

/-- A primed agent with trivial strategy state. -/
def c1Agent : Agent Unit := Agent.prime (fun s _ _ => s) (Agent.init ()) 1 1

/-- A strategy `choose` that always picks arm `0` and leaves the rng alone. -/
def c1ChooseS : Unit → Rng → ℕ × Rng := fun _ r => (0, r)

/-- A strategy `update` that ignores everything. -/
def c1UpdateS : Unit → ℕ → ℚ → Rng → Unit × Rng := fun _ _ _ r => ((), r)

/-! ## List helper lemmas -/

theorem getD_set_self {α : Type} (l : List α) (i : ℕ) (v d : α) (h : i < l.length) :
    (l.set i v).getD i d = v := by
  rw [List.getD_eq_getElem _ _ (by simpa using h)]
  exact List.getElem_set_self (by simpa using h)

theorem getD_set_ne {α : Type} (l : List α) (i j : ℕ) (v d : α) (h : i ≠ j) :
    (l.set i v).getD j d = l.getD j d := by
  by_cases hj : j < l.length
  · rw [List.getD_eq_getElem _ _ (by simpa using hj), List.getD_eq_getElem _ _ hj]
    exact List.getElem_set_ne h _
  · rw [List.getD_eq_default _ _ (by simpa using le_of_not_lt hj),
      List.getD_eq_default _ _ (le_of_not_lt hj)]

theorem getD_replicate {α : Type} (k a : ℕ) (c : α) :
    (List.replicate k c).getD a c = c := by
  by_cases h : a < k
  · rw [List.getD_eq_getElem _ _ (by simpa using h)]
    simp
  · exact List.getD_eq_default _ _ (by simpa using le_of_not_lt h)

theorem sum_set_getD (l : List ℕ) (i v : ℕ) (h : i < l.length) :
    (l.set i v).sum + l.getD i 0 = l.sum + v := by
  induction l generalizing i with
  | nil => simp at h
  | cons x xs ih =>
    cases i with
    | zero =>
      simp only [List.set_cons_zero, List.sum_cons, List.getD_cons_zero]
      omega
    | succ j =>
      have hj : j < xs.length := by simpa using h
      have := ih j hj
      simp only [List.set, List.sum_cons, List.getD_cons_succ]
      omega

theorem le_foldl_max (xs : List ℚ) (a : ℚ) : a ≤ xs.foldl max a := by
  induction xs generalizing a with
  | nil => exact le_refl a
  | cons x xs ih => exact le_trans (le_max_left a x) (ih (max a x))

theorem mem_le_foldl_max (xs : List ℚ) (a x : ℚ) (h : x ∈ xs) :
    x ≤ xs.foldl max a := by
  induction xs generalizing a with
  | nil => simp at h
  | cons y ys ih =>
    rcases List.mem_cons.mp h with rfl | hx
    · exact le_trans (le_max_right a x) (le_foldl_max ys (max a x))
    · exact ih (max a y) hx

theorem foldl_max_mem (xs : List ℚ) (a : ℚ) : xs.foldl max a = a ∨ xs.foldl max a ∈ xs := by
  induction xs generalizing a with
  | nil => exact .inl rfl
  | cons x xs ih =>
    rcases ih (max a x) with h | h
    · rcases max_choice a x with hm | hm
      · exact .inl (by rw [List.foldl_cons, h, hm])
      · exact .inr (by rw [List.foldl_cons, h, hm]; exact List.mem_cons_self _ _)
    · exact .inr (List.mem_cons_of_mem _ h)

theorem le_npMax {l : List ℚ} {x : ℚ} (h : x ∈ l) : x ≤ npMax l := by
  cases l with
  | nil => simp at h
  | cons y ys =>
    rcases List.mem_cons.mp h with rfl | hx
    · exact le_foldl_max ys x
    · exact mem_le_foldl_max ys y x hx

theorem npMax_mem {l : List ℚ} (h : l ≠ []) : npMax l ∈ l := by
  cases l with
  | nil => exact absurd rfl h
  | cons y ys =>
    show ys.foldl max y ∈ y :: ys
    rcases foldl_max_mem ys y with hm | hm
    · rw [hm]; exact List.mem_cons_self _ _
    · exact List.mem_cons_of_mem _ hm

theorem getD_mod_mem (l : List ℕ) (j : ℕ) (h : l ≠ []) : l.getD (j % l.length) 0 ∈ l := by
  have hlen : 0 < l.length := List.length_pos.mpr h
  have hlt : j % l.length < l.length := Nat.mod_lt _ hlen
  rw [List.getD_eq_getElem _ _ hlt]
  exact List.getElem_mem hlt

/-- `random_argmax` always lands on an index attaining the maximum. -/
theorem random_argmax_spec (values : List ℚ) (rng : Rng) (h : values ≠ []) :
    (random_argmax values rng).1 < values.length ∧
      values.getD (random_argmax values rng).1 0 = npMax values := by
  have hmem : npMax values ∈ values := npMax_mem h
  obtain ⟨i, hi, hival⟩ := List.mem_iff_getElem.mp hmem
  have hic : i ∈ (List.range values.length).filter
      (fun i => decide (values.getD i 0 = npMax values)) := by
    rw [List.mem_filter]
    refine ⟨List.mem_range.mpr hi, ?_⟩
    simp only [decide_eq_true_iff]
    rw [List.getD_eq_getElem _ _ hi, hival]
  have hne : (List.range values.length).filter
      (fun i => decide (values.getD i 0 = npMax values)) ≠ [] := List.ne_nil_of_mem hic
  have hres : (random_argmax values rng).1 ∈ (List.range values.length).filter
      (fun i => decide (values.getD i 0 = npMax values)) :=
    getD_mod_mem _ _ hne
  rw [List.mem_filter, List.mem_range, decide_eq_true_iff] at hres
  exact ⟨hres.1, hres.2⟩

theorem cumsumFrom_eq (l : List ℚ) (acc : ℚ) :
    cumsumFrom acc l = (List.range l.length).map (fun i => acc + (l.take (i + 1)).sum) := by
  induction l generalizing acc with
  | nil => rfl
  | cons x xs ih =>
    simp only [cumsumFrom, List.length_cons, List.range_succ_eq_map, List.map_cons,
      List.map_map, ih (acc + x)]
    congr 1
    · simp
    · apply List.map_congr_left
      intro i _
      simp [List.take_succ_cons, add_assoc]

theorem cumsum_eq_partialSums (l : List ℚ) : cumsum l = listPartialSums l := by
  rw [cumsum, cumsumFrom_eq, listPartialSums]
  apply List.map_congr_left
  intro i _
  rw [zero_add]

/-! ## Bandit helper lemmas -/

theorem means_length (b : Bandit) : b.means.length = b._arms.length :=
  List.length_map _ _

theorem means_getD (b : Bandit) (a : ℕ) (h : a < b._arms.length) :
    b.means.getD a 0 = (b._arms.getD a defaultArm).mean := by
  rw [List.getD_eq_getElem _ _ (by rw [means_length]; exact h),
    List.getD_eq_getElem _ _ h]
  simp [Bandit.means]

/-! ## minLen helper lemmas -/

theorem foldl_minLen_le (rest : List (List ℚ)) (a : ℕ) :
    rest.foldl (fun m r => min m r.length) a ≤ a := by
  induction rest generalizing a with
  | nil => exact le_refl a
  | cons r rs ih => exact le_trans (ih _) (min_le_left _ _)

theorem foldl_minLen_le_mem (rest : List (List ℚ)) (a : ℕ) (r : List ℚ)
    (h : r ∈ rest) : rest.foldl (fun m r => min m r.length) a ≤ r.length := by
  induction rest generalizing a with
  | nil => simp at h
  | cons x xs ih =>
    rcases List.mem_cons.mp h with rfl | hr
    · exact le_trans (foldl_minLen_le xs _) (min_le_right _ _)
    · exact ih _ hr

theorem foldl_minLen_mem (rest : List (List ℚ)) (a : ℕ) :
    rest.foldl (fun m r => min m r.length) a = a
      ∨ ∃ r ∈ rest, rest.foldl (fun m r => min m r.length) a = r.length := by
  induction rest generalizing a with
  | nil => exact .inl rfl
  | cons x xs ih =>
    rcases ih (min a x.length) with h | ⟨r, hr, h⟩
    · rcases min_choice a x.length with hm | hm
      · exact .inl (by rw [List.foldl_cons, h, hm])
      · exact .inr ⟨x, List.mem_cons_self _ _, by rw [List.foldl_cons, h, hm]⟩
    · exact .inr ⟨r, List.mem_cons_of_mem _ hr, by rw [List.foldl_cons, h]⟩

theorem zipRows_length (ls : List (List ℚ)) : (zipRows ls).length = minLen ls := by
  rw [zipRows, List.length_map, List.length_range]

/-! ## Semi-uniform run lemmas -/

theorem update_lengths (s : SemiUniformState) (c : ℕ) (r : ℚ) :
    (SemiUniformStrategy.update s c r)._Ns.length = s._Ns.length
      ∧ (SemiUniformStrategy.update s c r)._Qs.length = s._Qs.length := by
  constructor <;> simp [SemiUniformStrategy.update]

theorem runSemiUniform_lengths (k steps : ℕ) (trace : List (ℕ × ℚ)) :
    (runSemiUniform k steps trace)._Ns.length = k
      ∧ (runSemiUniform k steps trace)._Qs.length = k := by
  suffices h : ∀ (s : SemiUniformState),
      (trace.foldl (fun s cr => SemiUniformStrategy.update s cr.1 cr.2) s)._Ns.length
          = s._Ns.length
        ∧ (trace.foldl (fun s cr => SemiUniformStrategy.update s cr.1 cr.2) s)._Qs.length
          = s._Qs.length by
    have := h (SemiUniformStrategy.prime k steps)
    simpa [runSemiUniform, SemiUniformStrategy.prime] using this
  intro s
  induction trace generalizing s with
  | nil => exact ⟨rfl, rfl⟩
  | cons cr rest ih =>
    have h1 := update_lengths s cr.1 cr.2
    have h2 := ih (SemiUniformStrategy.update s cr.1 cr.2)
    exact ⟨h2.1.trans h1.1, h2.2.trans h1.2⟩

/-- The estimator invariant of the shared semi-uniform update: after any
in-range trace, `_Ns` holds per-arm visit counts and `_Qs * _Ns` holds
per-arm reward totals. -/
theorem runSemiUniform_stats (k steps : ℕ) (trace : List (ℕ × ℚ))
    (hc : ∀ cr ∈ trace, cr.1 < k) :
    (runSemiUniform k steps trace)._Ns.sum = trace.length
      ∧ ∀ a, a < k →
        (runSemiUniform k steps trace)._Ns.getD a 0
            = (trace.filter (fun cr => decide (cr.1 = a))).length
          ∧ (runSemiUniform k steps trace)._Qs.getD a 0
              * ((runSemiUniform k steps trace)._Ns.getD a 0 : ℚ)
            = ((trace.filter (fun cr => decide (cr.1 = a))).map Prod.snd).sum := by
  induction trace using List.reverseRecOn with
  | nil =>
    refine ⟨by simp [runSemiUniform, SemiUniformStrategy.prime], ?_⟩
    intro a _
    simp [runSemiUniform, SemiUniformStrategy.prime, getD_replicate]
  | append_singleton l cr ih =>
    have hcl : ∀ p ∈ l, p.1 < k := fun p hp => hc p (List.mem_append_left _ hp)
    have hck : cr.1 < k := hc cr (List.mem_append_right _ (List.mem_singleton.mpr rfl))
    obtain ⟨ihsum, ihentries⟩ := ih hcl
    have hlen := runSemiUniform_lengths k steps l
    have hrun : runSemiUniform k steps (l ++ [cr])
        = SemiUniformStrategy.update (runSemiUniform k steps l) cr.1 cr.2 := by
      rw [runSemiUniform, List.foldl_append]
      rfl
    set S := runSemiUniform k steps l with hS
    have hNlen : S._Ns.length = k := hlen.1
    have hQlen : S._Qs.length = k := hlen.2
    have hcN : cr.1 < S._Ns.length := by rw [hNlen]; exact hck
    have hcQ : cr.1 < S._Qs.length := by rw [hQlen]; exact hck
    constructor
    · rw [hrun]
      show (S._Ns.set cr.1 (S._Ns.getD cr.1 0 + 1)).sum = (l ++ [cr]).length
      have := sum_set_getD S._Ns cr.1 (S._Ns.getD cr.1 0 + 1) hcN
      rw [List.length_append, List.length_singleton, ← ihsum]
      omega
    · intro a ha
      have hfilter : (l ++ [cr]).filter (fun cr => decide (cr.1 = a))
          = l.filter (fun cr => decide (cr.1 = a))
            ++ if cr.1 = a then [cr] else [] := by
        rw [List.filter_append]
        congr 1
        by_cases hca : cr.1 = a <;> simp [hca]
      obtain ⟨ihcount, ihtotal⟩ := ihentries a ha
      by_cases hca : cr.1 = a
      · subst hca
        constructor
        · rw [hrun]
          show (S._Ns.set cr.1 (S._Ns.getD cr.1 0 + 1)).getD cr.1 0 = _
          rw [getD_set_self _ _ _ _ hcN, hfilter, if_pos rfl, List.length_append,
            List.length_singleton, ihcount]
        · rw [hrun]
          show (S._Qs.set cr.1 (S._Qs.getD cr.1 0
                + (cr.2 - S._Qs.getD cr.1 0) / ((S._Ns.getD cr.1 0 + 1 : ℕ) : ℚ))).getD cr.1 0
              * (((S._Ns.set cr.1 (S._Ns.getD cr.1 0 + 1)).getD cr.1 0 : ℕ) : ℚ) = _
          rw [getD_set_self _ _ _ _ hcQ, getD_set_self _ _ _ _ hcN, hfilter, if_pos rfl,
            List.map_append, List.sum_append]
          have hne : ((S._Ns.getD cr.1 0 : ℚ) + 1) ≠ 0 := by positivity
          push_cast
          rw [add_mul, div_mul_cancel₀ _ hne]
          simp only [List.map_cons, List.map_nil, List.sum_cons, List.sum_nil]
          linear_combination ihtotal
      · constructor
        · rw [hrun]
          show (S._Ns.set cr.1 (S._Ns.getD cr.1 0 + 1)).getD a 0 = _
          rw [getD_set_ne _ _ _ _ _ hca, hfilter, if_neg hca, List.append_nil]
          exact ihcount
        · rw [hrun]
          show (S._Qs.set cr.1 _).getD a 0
              * (((S._Ns.set cr.1 (S._Ns.getD cr.1 0 + 1)).getD a 0 : ℕ) : ℚ) = _
          rw [getD_set_ne _ _ _ _ _ hca, getD_set_ne _ _ _ _ _ hca, hfilter, if_neg hca,
            List.append_nil]
          exact ihtotal

/-! ## UCB1 protocol lemmas -/

theorem ucbTrial_succ_state (sqrt log : ℚ → ℚ) (alpha : ℚ) (k : ℕ)
    (rewards : ℕ → ℚ) (rng0 : Rng) (i : ℕ) :
    (ucbTrial sqrt log alpha k rewards rng0 (i + 1)).1
      = UCB1Strategy.update (ucbTrial sqrt log alpha k rewards rng0 i).1
          (UCB1Strategy.choose sqrt log alpha (ucbTrial sqrt log alpha k rewards rng0 i).1
            (ucbTrial sqrt log alpha k rewards rng0 i).2).1
          (rewards i) := rfl

theorem ucbTrial_t (sqrt log : ℚ → ℚ) (alpha : ℚ) (k : ℕ) (rewards : ℕ → ℚ)
    (rng0 : Rng) (i : ℕ) : (ucbTrial sqrt log alpha k rewards rng0 i).1._t = i := by
  induction i with
  | zero => rfl
  | succ j ih =>
    rw [ucbTrial_succ_state]
    show (ucbTrial sqrt log alpha k rewards rng0 j).1._t + 1 = j + 1
    rw [ih]

theorem ucbTrial_lengths (sqrt log : ℚ → ℚ) (alpha : ℚ) (k : ℕ) (rewards : ℕ → ℚ)
    (rng0 : Rng) (i : ℕ) :
    (ucbTrial sqrt log alpha k rewards rng0 i).1._Ns.length = k
      ∧ (ucbTrial sqrt log alpha k rewards rng0 i).1._Qs.length = k := by
  induction i with
  | zero => simp [ucbTrial, UCB1Strategy.prime]
  | succ j ih =>
    rw [ucbTrial_succ_state]
    refine ⟨?_, ?_⟩
    · show ((ucbTrial sqrt log alpha k rewards rng0 j).1._Ns.set _ _).length = k
      rw [List.length_set]
      exact ih.1
    · show ((ucbTrial sqrt log alpha k rewards rng0 j).1._Qs.set _ _).length = k
      rw [List.length_set]
      exact ih.2

theorem getD_set_incr_le (l : List ℕ) (c a : ℕ) :
    l.getD a 0 ≤ (l.set c (l.getD c 0 + 1)).getD a 0 := by
  by_cases hca : c = a
  · subst hca
    by_cases hc : c < l.length
    · rw [getD_set_self _ _ _ _ hc]
      exact Nat.le_succ _
    · rw [List.set_eq_of_length_le (le_of_not_lt hc)]
  · rw [getD_set_ne _ _ _ _ _ hca]

theorem ucbTrial_Ns_pos (sqrt log : ℚ → ℚ) (alpha : ℚ) (k : ℕ) (rewards : ℕ → ℚ)
    (rng0 : Rng) (i : ℕ) :
    ∀ a, a < k → a < i → 1 ≤ (ucbTrial sqrt log alpha k rewards rng0 i).1._Ns.getD a 0 := by
  induction i with
  | zero => intro a _ h; exact absurd h (Nat.not_lt_zero a)
  | succ j ih =>
    intro a hak haj
    rw [ucbTrial_succ_state]
    show 1 ≤ ((ucbTrial sqrt log alpha k rewards rng0 j).1._Ns.set
        (UCB1Strategy.choose sqrt log alpha _ _).1
        ((ucbTrial sqrt log alpha k rewards rng0 j).1._Ns.getD
          (UCB1Strategy.choose sqrt log alpha _ _).1 0 + 1)).getD a 0
    rcases Nat.lt_or_ge a j with haj' | haj'
    · exact le_trans (ih a hak haj') (getD_set_incr_le _ _ _)
    · have haeq : a = j := Nat.le_antisymm (Nat.lt_succ_iff.mp haj) haj'
      subst haeq
      have hchoice : (UCB1Strategy.choose sqrt log alpha
          (ucbTrial sqrt log alpha k rewards rng0 a).1
          (ucbTrial sqrt log alpha k rewards rng0 a).2).1 = a := by
        rw [UCB1Strategy.choose, ucbTrial_t,
          (ucbTrial_lengths sqrt log alpha k rewards rng0 a).1, if_pos hak]
      rw [hchoice, getD_set_self]
      · exact Nat.le_add_left 1 _
      · rw [(ucbTrial_lengths sqrt log alpha k rewards rng0 a).1]
        exact hak

/-! ## Claim theorems -/

/-- C9: for every base metric (Regret, Rewards, Optimality), `transform` is
the identity; for the cumulative metrics, `transform` is the prefix-sum of
the input; and each cumulative metric maps to exactly its one base metric. -/
theorem C9_metric_transform :
    ∀ x : List ℚ,
      Metric.transform .regret x = x
      ∧ Metric.transform .rewards x = x
      ∧ Metric.transform .optimality x = x
      ∧ Metric.transform .cumRegret x = listPartialSums x
      ∧ Metric.transform .cumRewards x = listPartialSums x
      ∧ Metric.base .cumRegret = .regret
      ∧ Metric.base .cumRewards = .rewards
      ∧ Metric.is_base .regret = true
      ∧ Metric.is_base .rewards = true
      ∧ Metric.is_base .optimality = true
      ∧ Metric.is_base .cumRegret = false
      ∧ Metric.is_base .cumRewards = false := by
  intro x
  refine ⟨rfl, rfl, rfl, ?_, ?_, rfl, rfl, rfl, rfl, rfl, rfl, rfl⟩
  · exact cumsum_eq_partialSums x
  · exact cumsum_eq_partialSums x

/-- C5: for every in-range choice, `regret` is `max(means) - means[choice]`
and `is_opt` holds exactly when `means[choice]` attains the maximum; both
depend only on the means, every tied-maximal arm is optimal, and `best_arm`
only returns maximal-mean indices. -/
theorem C5_regret_is_opt (b : Bandit) (choice : ℕ) (h : choice < b._arms.length) :
    b.regret choice = npMax b.means - b.means.getD choice 0
    ∧ (b.is_opt choice = true ↔ b.means.getD choice 0 = npMax b.means)
    ∧ (∀ a, a < b._arms.length → b.means.getD a 0 = npMax b.means → b.is_opt a = true)
    ∧ (∀ b' : Bandit, b'.means = b.means →
        b'.regret choice = b.regret choice ∧ b'.is_opt choice = b.is_opt choice)
    ∧ ((b.best_arm).1 < b._arms.length
        ∧ b.means.getD (b.best_arm).1 0 = npMax b.means
        ∧ b.is_opt (b.best_arm).1 = true) := by
  have hopt : ∀ a, a < b._arms.length →
      (b.is_opt a = true ↔ b.means.getD a 0 = npMax b.means) := by
    intro a ha
    rw [Bandit.is_opt, decide_eq_true_iff, means_getD b a ha, eq_comm]
  have hne : b.means ≠ [] := by
    have : 0 < b.means.length := by
      rw [means_length]
      exact Nat.lt_of_le_of_lt (Nat.zero_le choice) h
    exact List.ne_nil_of_length_pos this
  have hbest := random_argmax_spec b.means b._rng hne
  have hbest_lt : (b.best_arm).1 < b._arms.length := by
    have : (b.best_arm).1 = (random_argmax b.means b._rng).1 := rfl
    rw [this, ← means_length]
    exact hbest.1
  have hbest_val : b.means.getD (b.best_arm).1 0 = npMax b.means := hbest.2
  refine ⟨?_, hopt choice h, fun a ha hv => (hopt a ha).mpr hv, ?_, hbest_lt, hbest_val,
    (hopt _ hbest_lt).mpr hbest_val⟩
  · rw [Bandit.regret, means_getD b choice h]
  · intro b' hm
    have hlen : b'._arms.length = b._arms.length := by
      rw [← means_length, ← means_length, hm]
    have h' : choice < b'._arms.length := by rw [hlen]; exact h
    constructor
    · rw [Bandit.regret, Bandit.regret, ← means_getD b' choice h', ← means_getD b choice h,
        hm]
    · rw [Bandit.is_opt, Bandit.is_opt, ← means_getD b' choice h', ← means_getD b choice h,
        hm]

/-- C5 witness: a three-arm bandit with means `[1, 3, 3]` at the tied
choice `1`. -/
theorem C5_regret_is_opt_witness :
    (1 < (Bandit.init [⟨fun r => (1, r), 1⟩, ⟨fun r => (3, r), 3⟩,
        ⟨fun r => (3, r), 3⟩] rngZero)._arms.length)
    ∧ ((Bandit.init [⟨fun r => (1, r), 1⟩, ⟨fun r => (3, r), 3⟩,
          ⟨fun r => (3, r), 3⟩] rngZero).is_opt 1 = true
        ↔ (Bandit.init [⟨fun r => (1, r), 1⟩, ⟨fun r => (3, r), 3⟩,
            ⟨fun r => (3, r), 3⟩] rngZero).means.getD 1 0
          = npMax (Bandit.init [⟨fun r => (1, r), 1⟩, ⟨fun r => (3, r), 3⟩,
              ⟨fun r => (3, r), 3⟩] rngZero).means) :=
  ⟨by decide,
   (C5_regret_is_opt (Bandit.init [⟨fun r => (1, r), 1⟩, ⟨fun r => (3, r), 3⟩,
      ⟨fun r => (3, r), 3⟩] rngZero) 1 (by decide)).2.1⟩

/-- C2: for the semi-uniform strategies, after a prime and `t` in-range
updates the play counts sum to `t`, each arm's count is its number of
updates, a visited arm's Q-value is the arithmetic mean of its observed
rewards, and EpsilonFirst's overridden update agrees with the shared
estimator update on the `Qs`/`Ns` state. -/
theorem C2_semi_uniform_sample_mean (k steps : ℕ) (trace : List (ℕ × ℚ))
    (hc : ∀ cr ∈ trace, cr.1 < k) :
    (runSemiUniform k steps trace)._Ns.sum = trace.length
    ∧ (∀ a, a < k →
        (runSemiUniform k steps trace)._Ns.getD a 0
            = (trace.filter (fun cr => decide (cr.1 = a))).length
        ∧ (0 < (runSemiUniform k steps trace)._Ns.getD a 0 →
            (runSemiUniform k steps trace)._Qs.getD a 0
              = ((trace.filter (fun cr => decide (cr.1 = a))).map Prod.snd).sum
                / (((trace.filter (fun cr => decide (cr.1 = a))).length : ℕ) : ℚ)))
    ∧ (∀ (s : EpsilonFirstState) (c : ℕ) (r : ℚ),
        (EpsilonFirstStrategy.update s c r).base = SemiUniformStrategy.update s.base c r) := by
  obtain ⟨hsum, hentries⟩ := runSemiUniform_stats k steps trace hc
  refine ⟨hsum, ?_, fun s c r => rfl⟩
  intro a ha
  obtain ⟨hcount, htotal⟩ := hentries a ha
  refine ⟨hcount, ?_⟩
  intro hpos
  have hNne : (((runSemiUniform k steps trace)._Ns.getD a 0 : ℕ) : ℚ) ≠ 0 := by
    exact_mod_cast Nat.pos_iff_ne_zero.mp hpos
  rw [← hcount, eq_div_iff hNne]
  exact htotal

/-- C2 witness: two arms, three updates `(0, 3), (1, 5), (0, 1)`. -/
theorem C2_semi_uniform_sample_mean_witness :
    (∀ cr ∈ [((0 : ℕ), (3 : ℚ)), (1, 5), (0, 1)], cr.1 < 2)
    ∧ (runSemiUniform 2 10 [((0 : ℕ), (3 : ℚ)), (1, 5), (0, 1)])._Ns.sum
        = [((0 : ℕ), (3 : ℚ)), (1, 5), (0, 1)].length :=
  ⟨by decide, (C2_semi_uniform_sample_mean 2 10 _ (by decide)).1⟩

/-- C8: when the float draw is a genuine `random()` value (below 1), the
Random strategy makes the same choice as EpsilonGreedy with epsilon 1,
always takes the exploration branch, and ignores the Q estimates. -/
theorem C8_random_equiv_eps_greedy_one (s : SemiUniformState) (rng : Rng)
    (h : rng.floats rng.fpos < 1) :
    RandomStrategy.choose s rng = EpsilonGreedyStrategy.choose 1 s rng
    ∧ RandomStrategy.choose s rng = SemiUniformStrategy.explore s rng.nextFloat.2
    ∧ (∀ Qs' : List ℚ, RandomStrategy.choose ⟨Qs', s._Ns⟩ rng = RandomStrategy.choose s rng) := by
  have hbranch : ∀ s' : SemiUniformState,
      RandomStrategy.choose s' rng = SemiUniformStrategy.explore s' rng.nextFloat.2 := by
    intro s'
    simp only [RandomStrategy.choose, SemiUniformStrategy.choose, Rng.nextFloat]
    rw [if_pos (show rng.floats rng.fpos < RandomStrategy.effective_eps from h)]
  refine ⟨rfl, hbranch s, ?_⟩
  intro Qs'
  rw [hbranch ⟨Qs', s._Ns⟩, hbranch s]
  rfl

/-- C8 witness: at a float draw of `1/2` the two strategies coincide on a
fresh two-arm state. -/
theorem C8_random_equiv_eps_greedy_one_witness :
    (rngHalf.floats rngHalf.fpos < 1)
    ∧ RandomStrategy.choose (SemiUniformStrategy.prime 2 10) rngHalf
        = EpsilonGreedyStrategy.choose 1 (SemiUniformStrategy.prime 2 10) rngHalf :=
  ⟨by norm_num [rngHalf],
   (C8_random_equiv_eps_greedy_one (SemiUniformStrategy.prime 2 10) rngHalf
      (by norm_num [rngHalf])).1⟩

/-- C3: in a freshly primed UCB1 trial driven by the alternating
choose/update protocol, the first `k` choices are `0, 1, ..., k-1` in order
for every rng; afterwards the choice maximises
`Q[a] + alpha * sqrt(ln(t) / N[a])` (for every interpretation of the float
library's `sqrt`/`log` and every tie-break draw). -/
theorem C3_ucb1_roundrobin_then_argmax (sqrt log : ℚ → ℚ) (alpha : ℚ) (k : ℕ)
    (rewards : ℕ → ℚ) (rng0 : Rng) (i : ℕ) :
    (i < k → ucbChoice sqrt log alpha k rewards rng0 i = i)
    ∧ (k ≤ i → 0 < k →
        ucbChoice sqrt log alpha k rewards rng0 i < k
        ∧ (UCB1Strategy.computeUCBs sqrt log alpha
              (ucbTrial sqrt log alpha k rewards rng0 i).1).getD
            (ucbChoice sqrt log alpha k rewards rng0 i) 0
          = npMax (UCB1Strategy.computeUCBs sqrt log alpha
              (ucbTrial sqrt log alpha k rewards rng0 i).1)
        ∧ ∀ a, a < k →
            (UCB1Strategy.computeUCBs sqrt log alpha
                (ucbTrial sqrt log alpha k rewards rng0 i).1).getD a 0
              ≤ (UCB1Strategy.computeUCBs sqrt log alpha
                  (ucbTrial sqrt log alpha k rewards rng0 i).1).getD
                  (ucbChoice sqrt log alpha k rewards rng0 i) 0) := by
  have hlen := ucbTrial_lengths sqrt log alpha k rewards rng0 i
  constructor
  · intro hik
    show (UCB1Strategy.choose sqrt log alpha (ucbTrial sqrt log alpha k rewards rng0 i).1
        (ucbTrial sqrt log alpha k rewards rng0 i).2).1 = i
    rw [UCB1Strategy.choose, ucbTrial_t, hlen.1, if_pos hik]
  · intro hki hk
    have ht : ¬((ucbTrial sqrt log alpha k rewards rng0 i).1._t
        < (ucbTrial sqrt log alpha k rewards rng0 i).1._Ns.length) := by
      rw [ucbTrial_t, hlen.1]
      omega
    have hchoice : ucbChoice sqrt log alpha k rewards rng0 i
        = (random_argmax
            (UCB1Strategy.computeUCBs sqrt log alpha (ucbTrial sqrt log alpha k rewards rng0 i).1)
            (ucbTrial sqrt log alpha k rewards rng0 i).2).1 := by
      show (UCB1Strategy.choose sqrt log alpha _ _).1 = _
      rw [UCB1Strategy.choose, if_neg ht]
    have hlenU : (UCB1Strategy.computeUCBs sqrt log alpha
        (ucbTrial sqrt log alpha k rewards rng0 i).1).length = k := by
      rw [UCB1Strategy.computeUCBs, List.length_zipWith, hlen.1, hlen.2, min_self]
    have hneU : UCB1Strategy.computeUCBs sqrt log alpha
        (ucbTrial sqrt log alpha k rewards rng0 i).1 ≠ [] :=
      List.ne_nil_of_length_pos (by rw [hlenU]; exact hk)
    have hspec := random_argmax_spec _ (ucbTrial sqrt log alpha k rewards rng0 i).2 hneU
    refine ⟨?_, ?_, ?_⟩
    · rw [hchoice]
      have hlt := hspec.1
      rw [hlenU] at hlt
      exact hlt
    · rw [hchoice]
      exact hspec.2
    · intro a ha
      rw [hchoice, hspec.2]
      apply le_npMax
      have halen : a < (UCB1Strategy.computeUCBs sqrt log alpha
          (ucbTrial sqrt log alpha k rewards rng0 i).1).length := by
        rw [hlenU]
        exact ha
      rw [List.getD_eq_getElem _ _ halen]
      exact List.getElem_mem halen

/-- C3 witness: with two arms, the first choice is arm `0` and the third
choice (after the round-robin) maximises the UCB values. -/
theorem C3_ucb1_roundrobin_then_argmax_witness :
    ((0 : ℕ) < 2 ∧ ucbChoice (fun q => q) (fun q => q) 0 2 (fun _ => 0) rngZero 0 = 0)
    ∧ (2 ≤ (2 : ℕ) ∧ (0 : ℕ) < 2
        ∧ ucbChoice (fun q => q) (fun q => q) 0 2 (fun _ => 0) rngZero 2 < 2) :=
  ⟨⟨by decide,
    (C3_ucb1_roundrobin_then_argmax (fun q => q) (fun q => q) 0 2 (fun _ => 0) rngZero 0).1
      (by decide)⟩,
   by decide, by decide,
   ((C3_ucb1_roundrobin_then_argmax (fun q => q) (fun q => q) 0 2 (fun _ => 0) rngZero 2).2
      (by decide) (by decide)).1⟩

/-- C10: once the protocol reaches the UCB branch (`t ≥ k`), every arm's
play count is at least one, so the denominator `N[a]` in
`ln(t) / N[a]` is never zero. -/
theorem C10_ucb_denominator_positive (sqrt log : ℚ → ℚ) (alpha : ℚ) (k : ℕ)
    (rewards : ℕ → ℚ) (rng0 : Rng) (i a : ℕ) (hki : k ≤ i) (hak : a < k) :
    1 ≤ (ucbTrial sqrt log alpha k rewards rng0 i).1._Ns.getD a 0
    ∧ (((ucbTrial sqrt log alpha k rewards rng0 i).1._Ns.getD a 0 : ℕ) : ℚ) ≠ 0 := by
  have h1 := ucbTrial_Ns_pos sqrt log alpha k rewards rng0 i a hak (lt_of_lt_of_le hak hki)
  refine ⟨h1, ?_⟩
  exact_mod_cast Nat.pos_iff_ne_zero.mp h1

/-- C10 witness: one arm after one step. -/
theorem C10_ucb_denominator_positive_witness :
    (1 ≤ (1 : ℕ)) ∧ ((0 : ℕ) < 1)
    ∧ 1 ≤ (ucbTrial (fun q => q) (fun q => q) 0 1 (fun _ => 0) rngZero 1).1._Ns.getD 0 0 :=
  ⟨by decide, by decide,
   (C10_ucb_denominator_positive (fun q => q) (fun q => q) 0 1 (fun _ => 0) rngZero 1 0
      (by decide) (by decide)).1⟩

/-- C7: the agent's call-order state machine — `choose` and `Qs`/`Ns`
before `prime` fail with the usage errors, `update` without a pending
choice (including a second update after one choose) fails, and a
prime/choose/update round trip returns the agent to the ready state with
the pending choice cleared. -/
theorem C7_agent_state_machine {σ : Type} (primeS : σ → ℕ → ℕ → σ)
    (chooseS : σ → Rng → ℕ × Rng) (updateS : σ → ℕ → ℚ → Rng → σ × Rng)
    (QsS : σ → List ℚ) (NsS : σ → List ℕ)
    (a : Agent σ) (rng : Rng) (reward : ℚ) (k steps : ℕ) :
    (a._primed = false →
      Agent.choose chooseS a rng = .error "choose() can only be called on a primed agent"
      ∧ Agent.Qs QsS a = .error "agent has no Q values before it is run"
      ∧ Agent.Ns NsS a = .error "agent has no Q values before it is run")
    ∧ ((Agent.init a.strategy)._primed = false ∧ (Agent.init a.strategy)._choice = none)
    ∧ (a._choice = none →
        Agent.update updateS a reward rng
          = .error "update() can only be called after choose()")
    ∧ (∃ c a2 rng2,
        Agent.choose chooseS (Agent.prime primeS a k steps) rng = .ok (c, a2, rng2)
        ∧ ∃ a3 rng3, Agent.update updateS a2 reward rng2 = .ok (a3, rng3)
          ∧ a3._primed = true ∧ a3._choice = none
          ∧ Agent.update updateS a3 reward rng3
              = .error "update() can only be called after choose()") := by
  refine ⟨?_, ⟨rfl, rfl⟩, ?_, ?_⟩
  · intro hp
    refine ⟨?_, ?_, ?_⟩ <;> simp [Agent.choose, Agent.Qs, Agent.Ns, hp]
  · intro hcn
    simp [Agent.update, hcn]
  · refine ⟨(chooseS (primeS a.strategy k steps) rng).1,
      { strategy := primeS a.strategy k steps, _primed := true,
        _choice := some (chooseS (primeS a.strategy k steps) rng).1 },
      (chooseS (primeS a.strategy k steps) rng).2, rfl,
      { strategy := (updateS (primeS a.strategy k steps)
          (chooseS (primeS a.strategy k steps) rng).1 reward
          (chooseS (primeS a.strategy k steps) rng).2).1,
        _primed := true, _choice := none },
      (updateS (primeS a.strategy k steps)
          (chooseS (primeS a.strategy k steps) rng).1 reward
          (chooseS (primeS a.strategy k steps) rng).2).2,
      rfl, rfl, rfl, rfl⟩

/-- C7 witness: a fresh (never primed) agent over a trivial strategy. -/
theorem C7_agent_state_machine_witness :
    ((Agent.init (7 : ℕ))._primed = false)
    ∧ Agent.choose (fun s r => (s, r)) (Agent.init (7 : ℕ)) rngZero
        = .error "choose() can only be called on a primed agent" :=
  ⟨rfl,
   ((C7_agent_state_machine (fun s _ _ => s) (fun s r => (s, r)) (fun s _ _ r => (s, r))
      (fun _ => []) (fun _ => []) (Agent.init 7) rngZero 0 1 1).1 rfl).1⟩

/-- C4 counterexample: a non-general Beta TS update with the valid
Bernoulli reward `1` but no rng still fails — the claim says the rng is
only required in the general case, so this update should succeed. -/
theorem C4_nongeneral_rng_required_cex :
    BetaTSStrategy.update false (BetaTSStrategy.prime 2) 0 1 none
      = .error "TS strategies require rng" := rfl

/-- C4 (amended): an rng is required for every update, general or not;
given one, the general strategy rejects exactly the rewards outside
`[0, 1]` and the non-general strategy exactly the rewards other than `0`
and `1`; otherwise the update succeeds. -/
theorem C4_update_error_iff (general : Bool) (s : BetaTSState) (choice : ℕ)
    (reward : ℚ) (rng : Option Rng) :
    (∃ e, BetaTSStrategy.update general s choice reward rng = .error e)
      ↔ rng = none
        ∨ (general = true ∧ (1 < reward ∨ reward < 0))
        ∨ (general = false ∧ reward ≠ 0 ∧ reward ≠ 1) := by
  cases rng with
  | none =>
    simp [BetaTSStrategy.update]
  | some r =>
    simp only [BetaTSStrategy.update]
    by_cases h1 : general ∧ (reward > 1 ∨ reward < 0)
    · rw [if_pos h1]
      exact ⟨fun _ => .inr (.inl ⟨h1.1, h1.2⟩), fun _ => ⟨_, rfl⟩⟩
    · rw [if_neg h1]
      by_cases h2 : ¬general ∧ reward ≠ 0 ∧ reward ≠ 1
      · rw [if_pos h2]
        exact ⟨fun _ => .inr (.inr ⟨by simpa using h2.1, h2.2.1, h2.2.2⟩),
               fun _ => ⟨_, rfl⟩⟩
      · rw [if_neg h2]
        constructor
        · rintro ⟨e, he⟩
          exact Except.noConfusion he
        · rintro (h | ⟨hg, hr⟩ | ⟨hg, hr0, hr1⟩)
          · exact Option.noConfusion h
          · exact absurd ⟨hg, hr⟩ h1
          · exact absurd ⟨by simp [hg], hr0, hr1⟩ h2

/-- C6 counterexample: `Bandit.__init__` performs no emptiness check, so
an empty ArmSet is constructed without any error — the claim says this
construction fails. -/
theorem C6_empty_armset_constructible_cex :
    (Bandit.init [] rngZero)._arms = [] ∧ (Bandit.init [] rngZero)._arms.length = 0 :=
  ⟨rfl, rfl⟩

/-- C6 (amended): constructing a `Bandit` from a zero-length arm list
succeeds (the emptiness check lives in `Simulation.__init__`, which rejects
an empty bandit); building a bandit from per-arm parameter lists uses
zip-shortest semantics — the arm count is the length of the shortest list —
with a construction error exactly when that count is zero. -/
theorem C6_zip_shortest_and_empty_checks (mk : List ℚ → Arm) (ls : List (List ℚ))
    (rng : Rng) :
    ((∃ e, Arm.banditOf mk ls rng = .error e) ↔ minLen ls = 0)
    ∧ (∀ b, Arm.banditOf mk ls rng = .ok b → b._arms.length = minLen ls)
    ∧ (∀ l ∈ ls, minLen ls ≤ l.length)
    ∧ (ls ≠ [] → ∃ l ∈ ls, minLen ls = l.length)
    ∧ (∀ (agents : List ℕ) (b : Bandit), agents.length ≠ 0 → b._arms.length = 0 →
        Simulation.init agents b rng = .error "bandit cannot be empty") := by
  have hzl := zipRows_length ls
  refine ⟨?_, ?_, ?_, ?_, ?_⟩
  · constructor
    · rintro ⟨e, he⟩
      rw [Arm.banditOf] at he
      by_cases h : (zipRows ls).length = 0
      · rw [← hzl]
        exact h
      · rw [if_neg h] at he
        exact Except.noConfusion he
    · intro h
      refine ⟨"insufficient parameters to create an arm", ?_⟩
      rw [Arm.banditOf, if_pos (by rw [hzl]; exact h)]
  · intro b hb
    rw [Arm.banditOf] at hb
    by_cases h : (zipRows ls).length = 0
    · rw [if_pos h] at hb
      exact Except.noConfusion hb
    · rw [if_neg h] at hb
      simp only [Except.ok.injEq] at hb
      rw [← hb, Bandit.init, List.length_map, hzl]
  · intro l hl
    cases ls with
    | nil => simp at hl
    | cons x rest =>
      rcases List.mem_cons.mp hl with rfl | hr
      · exact foldl_minLen_le rest l.length
      · exact foldl_minLen_le_mem rest x.length l hr
  · intro hne
    cases ls with
    | nil => exact absurd rfl hne
    | cons x rest =>
      rcases foldl_minLen_mem rest x.length with h | ⟨r, hr, h⟩
      · exact ⟨x, List.mem_cons_self _ _, h⟩
      · exact ⟨r, List.mem_cons_of_mem _ hr, h⟩
  · intro agents b hag hb
    rw [Simulation.init, if_neg hag, if_pos hb]

/-- C6 witness: parameter lists of lengths 2 and 1 give the shortest
length, 1, as arm count. -/
theorem C6_zip_shortest_and_empty_checks_witness :
    ([[(1 : ℚ), 2], [3]] ≠ ([] : List (List ℚ)))
    ∧ ∃ l ∈ [[(1 : ℚ), 2], [3]], minLen [[(1 : ℚ), 2], [3]] = l.length :=
  ⟨by decide,
   (C6_zip_shortest_and_empty_checks (fun _ => defaultArm) [[(1 : ℚ), 2], [3]]
      rngZero).2.2.2.1 (by decide)⟩

/-- C1 counterexample: the armset's own rng draws `10`, the run-level
(shared) rng draws `20`; the simulation step's reward is `10`, while the
spec's `play(choice, sharedRng)` would yield `20` — so the reward does not
come from the run-level rng. -/
theorem C1_reward_from_shared_rng_cex :
    (simulationStep c1ChooseS c1UpdateS c1Agent c1Bandit rngTwenty).map
        (fun out => out.2.2.2.2) = .ok 10
    ∧ (c1Bandit.playSpecModel 0 rngTwenty).1 = 20
    ∧ (10 : ℚ) ≠ 20 :=
  ⟨rfl, rfl, by norm_num⟩

/-- C1 (amended): in every simulation step the reward is obtained as
`ArmSet.play(choice)`, which plays the chosen arm with the armset's own
internal rng; the run-level (Simulation-shared) rng is threaded only
through the agent's `choose` and `update`. -/
theorem C1_reward_uses_armset_own_rng {σ : Type} (chooseS : σ → Rng → ℕ × Rng)
    (updateS : σ → ℕ → ℚ → Rng → σ × Rng) (a : Agent σ) (b : Bandit) (rng : Rng)
    (h : a._primed = true) :
    simulationStep chooseS updateS a b rng
      = .ok ({ strategy := (updateS a.strategy (chooseS a.strategy rng).1
                  (b.play (chooseS a.strategy rng).1).1 (chooseS a.strategy rng).2).1,
               _primed := true, _choice := none },
             (b.play (chooseS a.strategy rng).1).2,
             (updateS a.strategy (chooseS a.strategy rng).1
                (b.play (chooseS a.strategy rng).1).1 (chooseS a.strategy rng).2).2,
             (chooseS a.strategy rng).1,
             (b.play (chooseS a.strategy rng).1).1)
    ∧ (b.play (chooseS a.strategy rng).1).1
        = ((b._arms.getD (chooseS a.strategy rng).1 defaultArm).play b._rng).1 := by
  constructor
  · rcases a with ⟨s, p, c⟩
    cases h
    rfl
  · rfl

/-- C1 witness: the concrete one-arm setup of the counterexample satisfies
the amended statement. -/
theorem C1_reward_uses_armset_own_rng_witness :
    (c1Agent._primed = true)
    ∧ (c1Bandit.play (c1ChooseS () rngTwenty).1).1
        = ((c1Bandit._arms.getD (c1ChooseS () rngTwenty).1 defaultArm).play c1Bandit._rng).1 :=
  ⟨rfl,
   (C1_reward_uses_armset_own_rng c1ChooseS c1UpdateS c1Agent c1Bandit rngTwenty rfl).2⟩

end Mabby
